import Mathlib

/-!
Verification development for the HMM-to-transducer compilation core of
`src/hmm/hmm-utils.h` (kaldi).  The repository ships only the declarations
(the header); each operation's behaviour is therefore modelled from the
accompanying specification, as noted in the doc comment of each definition.
Probabilities and automaton weights are modelled exactly as rationals in the
probability domain (the log-domain weight w of the source corresponds to the
probability exp(-w); multiplying probabilities is adding log-domain weights).
-/

namespace KaldiHmm

/-- Arc of a weighted FST: input label, output label, weight (a probability,
multiplicative semiring) and destination state. -/
structure Arc where
  ilabel : Nat
  olabel : Nat
  weight : ℚ
  nextstate : Nat
deriving DecidableEq, Repr

/-- A weighted FST: `arcs` lists, per state, the outgoing arcs; `finals`
gives per state the final weight (0 meaning non-final); `start` is the
start state.  The number of states is `arcs.length`. -/
structure Fst where
  arcs : List (List Arc)
  finals : List ℚ
  start : Nat
deriving DecidableEq, Repr

/-- Modelled from the spec: one emitting state of a phone topology, with its
self-loop probability (0 when the state has no self-loop) and its forward
transitions, each a pair (destination HMM state index, probability). -/
structure TopoState where
  selfLoopProb : ℚ
  fwdTrans : List (Nat × ℚ)
deriving DecidableEq, Repr

/-- Modelled from the spec: the Context Tree collaborator (the phonetic
decision tree, class `ContextDependencyInterface`, not part of this
repository).  `width` is the required context-window length, `central` the
designated central position, and `map` returns the OutputDistributionSequence
(pdf-id sequence) for a window, `none` on failure. -/
structure ContextDep where
  width : Nat
  central : Nat
  map : List Nat → Option (List Nat)

/-- Modelled from the spec: the Transition Provider collaborator (class
`Transitions`, not part of this repository).  A TransitionHandle
(transition-id) bijectively denotes (phone, HMM state index, is-self-loop,
pdf-id); `handleOf` encodes such a tuple, `info` decodes a handle (none when
the integer is not a handle), `prob` gives the handle's transition
probability, `topo` gives a phone's topology and `isPhone` says whether an
integer id denotes a real phone. -/
structure Transitions where
  topo : Nat → List TopoState
  handleOf : Nat → Nat → Bool → Nat → Nat
  info : Nat → Option (Nat × Nat × Bool × Nat)
  prob : Nat → ℚ
  isPhone : Nat → Bool

/-- From the source (hmm-utils.h line 157): labels over 10000000
(kNontermBigNumber) are treated the same as disambiguation symbols. -/
def kNontermBigNumber : Nat := 10000000

/-- A label is exempt from the stochasticity rewriting when it is a member of
the disambiguation-symbol list or exceeds the grammar-nonterminal sentinel. -/
def isExempt (disambig : List Nat) (l : Nat) : Bool :=
  disambig.contains l || decide (l > kNontermBigNumber)

/-- Modelled from the spec: the body of the phone-acceptor compiler
(GetHmmAsFsa's construction step; only the declaration is in the repository).
Given the central phone and its OutputDistributionSequence it instantiates the
phone's topology: automaton state i (i < n, n emitting states) corresponds to
HMM state i, state n is the single final state with final weight 1.  Each
forward transition of HMM state i becomes an arc labelled (input = output)
with the forward TransitionHandle of (phone, i, pdf).  When
`includeSelfLoops` is true a self-loop arc with the self-loop handle and
probability q is added at each state with q ≠ 0; when false self-loops are
omitted and each forward probability p is rescaled to p / (1 - q). -/
def hmmStateArcs (trans : Transitions) (phone : Nat) (pdfSeq : List Nat)
    (includeSelfLoops : Bool) (i : Nat) : List Arc :=
  let st := (trans.topo phone).getD i ⟨0, []⟩
  let pdf := pdfSeq.getD i 0
  let fh := trans.handleOf phone i false pdf
  let q := st.selfLoopProb
  let fwd := st.fwdTrans.map (fun dp =>
    { ilabel := fh, olabel := fh,
      weight := if includeSelfLoops then dp.2 else dp.2 / (1 - q),
      nextstate := dp.1 : Arc })
  if includeSelfLoops && decide (q ≠ 0) then
    { ilabel := trans.handleOf phone i true pdf,
      olabel := trans.handleOf phone i true pdf,
      weight := q, nextstate := i } :: fwd
  else fwd

/-- Modelled from the spec (continued): the whole acceptor; see
`hmmStateArcs` for the per-state arcs. -/
def makeHmmFsa (trans : Transitions) (phone : Nat) (pdfSeq : List Nat)
    (includeSelfLoops : Bool) : Fst :=
  let n := (trans.topo phone).length
  { arcs := (List.range n).map
      (hmmStateArcs trans phone pdfSeq includeSelfLoops) ++ [[]],
    finals := List.replicate n 0 ++ [1],
    start := 0 }

/-- The cache key: (central phone, pdf-id sequence), as in `HmmCacheType` of
the source. -/
abbrev CacheKey := Nat × List Nat

/-- Modelled from the spec: GetHmmAsFsa (only declared in the repository).
Validates the window length, resolves the OutputDistributionSequence through
the Context Tree, forms the CacheKey (central phone, pdf-id sequence), returns
the cached acceptor on a hit and otherwise builds the acceptor from the key
and inserts it.  Returns the acceptor together with the updated cache, `none`
on a Context-Tree failure. -/
def GetHmmAsFsa (window : List Nat) (ctx : ContextDep) (trans : Transitions)
    (includeSelfLoops : Bool) (cache : List (CacheKey × Fst)) :
    Option (Fst × List (CacheKey × Fst)) :=
  if window.length = ctx.width then
    match ctx.map window with
    | none => none
    | some pdfSeq =>
      let phone := window.getD ctx.central 0
      let key : CacheKey := (phone, pdfSeq)
      match cache.lookup key with
      | some f => some (f, cache)
      | none =>
        let f := makeHmmFsa trans phone pdfSeq includeSelfLoops
        some (f, (key, f) :: cache)
  else none

/-- Two's-complement wrap of an unbounded integer into a 32-bit machine int,
modelling the C++ `int` arithmetic of the source. -/
def wrap32 (x : Int) : Int := (x + 2 ^ 31) % 2 ^ 32 - 2 ^ 31

/-- From the source (hmm-utils.h lines 58-64): `HmmCacheHash::operator()`
computes `103049 * p.first + VectorHasher<int32>()(p.second)`.  The
`VectorHasher` lives outside this repository and is passed here as the
function parameter `vhash`; the 32-bit machine arithmetic is modelled by
`wrap32`. -/
def HmmCacheHash (vhash : List Int → Int) (p : Int × List Int) : Int :=
  wrap32 (103049 * p.1 + vhash p.2)

/-- Modelled from the spec: the self-loop association step of AddSelfLoops
(only declared in the repository).  The HMM state associated with an
automaton state is inferred from the TransitionHandles on its non-exempt
arcs: the first arc carrying a real forward handle (phone, j, pdf)
identifies HMM state j of that phone, whose self-loop handle is
`handleOf phone j true pdf` and whose self-loop probability q comes from the
topology; `none` when no handle identifies a self-loop-capable state.  The
spec leaves the exact association rule open (design note 9); this model uses
the state's outgoing handles, which is the rule forced by the spec's
stochasticity round-trip property (the rewrite must reproduce the
pre-removal topology). -/
def selfLoopInfoAt (trans : Transitions) (disambig : List Nat) :
    List Arc → Option (Nat × ℚ)
  | [] => none
  | a :: rest =>
    if a.ilabel ≠ 0 ∧ ¬ isExempt disambig a.ilabel then
      match trans.info a.ilabel with
      | some (ph, j, _, pdf) =>
        let q := ((trans.topo ph).getD j ⟨0, []⟩).selfLoopProb
        if q ≠ 0 then some (trans.handleOf ph j true pdf, q)
        else selfLoopInfoAt trans disambig rest
      | none => selfLoopInfoAt trans disambig rest
    else selfLoopInfoAt trans disambig rest

/-- Modelled from the spec: the per-state mutation of AddSelfLoops.  When the
state's associated HMM state has a self-loop (handle h, probability q), a
self-loop arc is inserted; with `useWeights` its weight is q and every
pre-existing non-exempt outgoing arc and the final weight are rescaled by
(1 - q); without `useWeights` it is inserted with weight 1 (the
multiplicative identity) and nothing is rescaled. -/
def addSelfLoopsState (trans : Transitions) (disambig : List Nat)
    (useWeights : Bool) (s : Nat) (as : List Arc) (fw : ℚ) : List Arc × ℚ :=
  match selfLoopInfoAt trans disambig as with
  | none => (as, fw)
  | some (h, q) =>
    if useWeights then
      ({ ilabel := h, olabel := h, weight := q, nextstate := s } ::
         as.map (fun a => if isExempt disambig a.ilabel then a
           else { a with weight := a.weight * (1 - q) }),
       fw * (1 - q))
    else
      ({ ilabel := h, olabel := h, weight := 1, nextstate := s } :: as, fw)

/-- Does the state `s` with outgoing arcs `as` already carry a self-loop? -/
def hasSelfLoop (s : Nat) (as : List Arc) : Bool :=
  as.any (fun a => a.nextstate == s)

/-- Modelled from the spec: AddSelfLoops (only declared in the repository).
With `currentlySelfLoopFree` it checks that no state of the input already
carries a self-loop and fails fatally (modelled as `none`) otherwise; with
`currentlySelfLoopFree = false`, states that already have a self-loop are
left untouched.  Every other state receives the mutation of
`addSelfLoopsState`.  A transducer with zero states is a no-op. -/
def addSelfLoopsPairs (trans : Transitions) (disambig : List Nat)
    (useWeights : Bool) (f : Fst) : List (List Arc × ℚ) :=
  (List.range f.arcs.length).map (fun s =>
    let as := f.arcs.getD s []
    let fw := f.finals.getD s 0
    if hasSelfLoop s as then (as, fw)
    else addSelfLoopsState trans disambig useWeights s as fw)

/-- Modelled from the spec (continued): the full AddSelfLoops operation; see
`addSelfLoopsPairs` for the per-state mutation. -/
def AddSelfLoops (trans : Transitions) (disambig : List Nat)
    (currentlySelfLoopFree useWeights : Bool) (f : Fst) : Option Fst :=
  if currentlySelfLoopFree && (List.range f.arcs.length).any
      (fun s => hasSelfLoop s (f.arcs.getD s [])) then
    none
  else
    some { arcs := (addSelfLoopsPairs trans disambig useWeights f).map
             Prod.fst,
           finals := (addSelfLoopsPairs trans disambig useWeights f).map
             Prod.snd,
           start := f.start }

/-- The per-arc transformation of AddTransitionProbs: an arc whose input
label is a TransitionHandle (non-epsilon, not a disambiguation or
grammar-nonterminal symbol) has its weight multiplied by that handle's
transition probability; every other arc is unchanged. -/
def addTransProbArc (trans : Transitions) (disambig : List Nat) (a : Arc) :
    Arc :=
  if a.ilabel ≠ 0 ∧ ¬ isExempt disambig a.ilabel then
    { a with weight := a.weight * trans.prob a.ilabel }
  else a

/-- Modelled from the spec: AddTransitionProbs on an ordinary transducer
(only declared in the repository).  Applies `addTransProbArc` to every arc;
final weights and all structure are unchanged.  An FST with no states is a
no-op. -/
def AddTransitionProbs (trans : Transitions) (disambig : List Nat)
    (f : Fst) : Fst :=
  { f with arcs := f.arcs.map (List.map (addTransProbArc trans disambig)) }

/-- Arc of a lattice: the weight has a graph-cost and an acoustic-cost
component, both modelled in the probability domain. -/
structure LatArc where
  ilabel : Nat
  olabel : Nat
  graph : ℚ
  acoustic : ℚ
  nextstate : Nat
deriving DecidableEq, Repr

/-- A lattice: per-state arcs and per-state final weights (graph, acoustic),
with (0, 0) meaning non-final. -/
structure Lat where
  arcs : List (List LatArc)
  finals : List (ℚ × ℚ)
  start : Nat
deriving DecidableEq, Repr

/-- The per-arc transformation of the Lattice overload of
AddTransitionProbs: the graph component of the weight of an arc carrying a
TransitionHandle (non-epsilon input label) is multiplied by that handle's
transition probability; the acoustic component is untouched. -/
def addTransProbLatArc (trans : Transitions) (a : LatArc) : LatArc :=
  if a.ilabel ≠ 0 then { a with graph := a.graph * trans.prob a.ilabel }
  else a

/-- Modelled from the spec: the Lattice overload of AddTransitionProbs (only
declared in the repository; its signature takes no disambiguation-symbol
list).  Applies the identical multiplication to the graph-cost component of
every arc weight, leaving acoustic components and finals unchanged. -/
def AddTransitionProbsLat (trans : Transitions) (lat : Lat) : Lat :=
  { lat with arcs := lat.arcs.map (List.map (addTransProbLatArc trans)) }

/-- Modelled from the spec: ConvertTransitionIdsToPdfs is declared but
intentionally unimplemented (hmm-utils.h line 214: placeholder, not
implemented yet); any implementation must explicitly fail rather than
silently no-op.  Modelled as an operation that always returns an error. -/
def ConvertTransitionIdsToPdfs (_trans : Transitions)
    (_disambig : List Nat) (_f : Fst) : Except String Fst :=
  .error "ConvertTransitionIdsToPdfs is not implemented"

/-- Concrete transition provider for the spec's stochasticity round-trip
example: phone 1 has a 2-state topology, state 0 with self-loop probability
1/2 and forward probability 1/2 to state 1, state 1 with self-loop
probability 3/10 and exit probability 7/10 to the final state 2.  Handles
are encoded as 100·phone + 10·state + (1 if self-loop) + 2, and `info` is
the inverse of that encoding on the handles in use. -/
def rtTrans : Transitions :=
  { topo := fun ph => if ph = 1 then
      [⟨1/2, [(1, 1/2)]⟩, ⟨3/10, [(2, 7/10)]⟩] else []
    handleOf := fun ph i sl _ => 100 * ph + 10 * i + (if sl then 1 else 0) + 2
    info := fun h =>
      if h = 102 then some (1, 0, false, 0)
      else if h = 112 then some (1, 1, false, 1)
      else if h = 103 then some (1, 0, true, 0)
      else if h = 113 then some (1, 1, true, 1)
      else none
    prob := fun h => if h = 102 then 1/2 else if h = 112 then 7/10 else 1
    isPhone := fun p => p = 1 }

/-- Concrete monophone context tree for the round-trip example: the window
[1] resolves to the pdf-id sequence [0, 1]. -/
def rtCtx : ContextDep :=
  { width := 1, central := 0,
    map := fun w => if w = [1] then some [0, 1] else none }

/-- The acceptor the round-trip example compiles to without self-loops: one
forward arc of probability 1 at each emitting state. -/
def rtFsaNoLoops : Fst :=
  { arcs := [[⟨102, 102, 1, 1⟩], [⟨112, 112, 1, 2⟩], []],
    finals := [0, 0, 1], start := 0 }

/-- The acceptor of the round-trip example with self-loops: self-loops of
probability 1/2 and 3/10, forward arcs of probability 1/2 and 7/10. -/
def rtFsaWithLoops : Fst :=
  { arcs := [[⟨103, 103, 1/2, 0⟩, ⟨102, 102, 1/2, 1⟩],
             [⟨113, 113, 3/10, 1⟩, ⟨112, 112, 7/10, 2⟩], []],
    finals := [0, 0, 1], start := 0 }

/-- Modelled from the spec: is an ilabel_info entry a disambiguation-symbol
entry?  Singleton entries whose symbol is not a phone, or whose symbol
exceeds the grammar-nonterminal sentinel, are treated as disambiguation
symbols. -/
def isDisambigEntry (trans : Transitions) (e : List Nat) : Bool :=
  e.length == 1 &&
    (! trans.isPhone (e.getD 0 0) || decide (e.getD 0 0 > kNontermBigNumber))

/-- The equivalence-class key of an ilabel_info entry: a phone entry is
keyed by (central phone, OutputDistributionSequence) — the same key as the
GetHmmAsFsa cache — while a disambiguation entry is keyed by its own
position, so it is never merged with any other entry. -/
abbrev IlabelKey := Sum (Nat × List Nat) Nat

/-- Modelled from the spec: the key of the entry at position i. -/
def entryKey (ctx : ContextDep) (trans : Transitions) (i : Nat)
    (e : List Nat) : Option IlabelKey :=
  if isDisambigEntry trans e then some (Sum.inr i)
  else if e.length = ctx.width then
    (ctx.map e).map (fun sq => Sum.inl (e.getD ctx.central 0, sq))
  else none

/-- Modelled from the spec: the keys of all entries starting at position i;
`none` as soon as some phone entry fails Context-Tree resolution. -/
def ilabelKeys (ctx : ContextDep) (trans : Transitions) :
    Nat → List (List Nat) → Option (List IlabelKey)
  | _, [] => some []
  | i, e :: rest =>
    (entryKey ctx trans i e).bind (fun k0 =>
      (ilabelKeys ctx trans (i + 1) rest).map (fun ks => k0 :: ks))

/-- First-occurrence deduplication, keeping the original order. -/
def firstDedup : List IlabelKey → List IlabelKey
  | [] => []
  | k :: ks => k :: (firstDedup ks).filter (fun x => decide (x ≠ k))

/-- Index of the first occurrence of a key in a key list (the length when
absent). -/
def keyIndexOf (x : IlabelKey) : List IlabelKey → Nat
  | [] => 0
  | k :: ks => if k = x then 0 else keyIndexOf x ks + 1

/-- Modelled from the spec: GetIlabelMapping (only declared in the
repository).  Groups the entries of ilabel_info_old into equivalence
classes by key and returns old2new_map, one entry per class, holding the
index in ilabel_info_old of the class's first representative. -/
def GetIlabelMapping (entries : List (List Nat)) (ctx : ContextDep)
    (trans : Transitions) : Option (List Nat) :=
  (ilabelKeys ctx trans 0 entries).map (fun ks =>
    (firstDedup ks).map (fun k => keyIndexOf k ks))

/-- A triphone context tree for the canonicalization example: any window of
length 3 with central phone 1 resolves to the pdf-id sequence [0, 1]. -/
def exCtxC8 : ContextDep :=
  { width := 3, central := 1,
    map := fun w => if w.getD 1 0 = 1 ∧ w.length = 3
      then some [0, 1] else none }

/-- From the source (hmm-utils.h lines 39-55): the configuration of
GetHTransducer, with the grammar-decoding offset (default -1, disabled) and
the construction-time self-loop toggle (default false). -/
structure HTransducerConfig where
  nonterm_phones_offset : Int
  include_self_loops : Bool

/-- The accumulator of the H-transducer assembler: the arcs leaving the
shared start state (one per processed entry, in order), the internal
("lane") states built so far — each recorded with the index of the entry
it was built for and its outgoing arcs — and the disambiguation symbols
seen on the input side. -/
structure HAccum where
  startArcs : List Arc
  lanes : List (Nat × List Arc)
  disambigSyms : List Nat

/-- Insert a number into a sorted duplicate-free list, keeping it sorted
and duplicate-free. -/
def natInsert (x : Nat) : List Nat → List Nat
  | [] => [x]
  | y :: ys =>
    if x < y then x :: y :: ys
    else if x = y then y :: ys
    else y :: natInsert x ys

/-- Sort a list of numbers and drop duplicates. -/
def natSortDedup : List Nat → List Nat
  | [] => []
  | x :: xs => natInsert x (natSortDedup xs)

/-- The arcs of the j-th state of an embedded lane copy: the compiled
acceptor's arcs shifted by the base state offset with the lane's output
label, plus (when the copied state was final) an exit arc to the shared
final state carrying the final weight. -/
def laneCopyArcs (i base : Nat) (fsa : Fst) (j : Nat) : List Arc :=
  ((fsa.arcs.getD j []).map (fun a =>
    ⟨a.ilabel, i, a.weight, base + a.nextstate⟩)) ++
  (if fsa.finals.getD j 0 ≠ 0 then [⟨0, i, fsa.finals.getD j 0, 1⟩]
   else [])

/-- The embedded private copy of a compiled acceptor, one lane state per
acceptor state, each tagged with the lane index i. -/
def laneCopy (i base : Nat) (fsa : Fst) : List (Nat × List Arc) :=
  (List.range fsa.arcs.length).map (fun j => (i, laneCopyArcs i base fsa j))

/-- Modelled from the spec: the entry-embedding loop of GetHTransducer
(only the declaration is in the repository; behaviour from spec 4.2).  A
disambiguation entry becomes one pass-through arc from the shared start
(state 0) to the shared final (state 1), input-labelled with the symbol,
output-labelled with the entry position, weight 1.  A phone entry is
compiled by GetHmmAsFsa and embedded as a private copy: its states become
fresh states after the existing ones, its arcs keep their input labels,
every arc of the lane gets the entry position as output label, the start is
connected to the copy entry with an identity-weight arc, and each final
weight of the copy becomes an arc to the shared final carrying that
weight. -/
def hBuildGo (ctx : ContextDep) (trans : Transitions)
    (cfg : HTransducerConfig) :
    Nat → List (List Nat) → HAccum → Option HAccum
  | _, [], acc => some acc
  | i, e :: rest, acc =>
    if isDisambigEntry trans e then
      hBuildGo ctx trans cfg (i + 1) rest
        { startArcs := acc.startArcs ++ [⟨e.getD 0 0, i, 1, 1⟩],
          lanes := acc.lanes,
          disambigSyms := acc.disambigSyms ++ [e.getD 0 0] }
    else
      match GetHmmAsFsa e ctx trans cfg.include_self_loops [] with
      | none => none
      | some (fsa, _) =>
        hBuildGo ctx trans cfg (i + 1) rest
          { startArcs := acc.startArcs ++
              [⟨0, i, 1, 2 + acc.lanes.length⟩],
            lanes := acc.lanes ++ laneCopy i (2 + acc.lanes.length) fsa,
            disambigSyms := acc.disambigSyms }

/-- The transducer assembled from a finished accumulator: state 0 is the
shared start, state 1 the shared final (final weight 1), states 2.. the
embedded lane states. -/
def buildHFst (acc : HAccum) : Fst :=
  { arcs := acc.startArcs :: [] :: acc.lanes.map Prod.snd,
    finals := 0 :: 1 :: List.replicate acc.lanes.length 0,
    start := 0 }

/-- Modelled from the spec: GetHTransducer (only declared in the
repository).  Returns the assembled transducer and the sorted duplicate-free
list of input-side disambiguation symbols. -/
def GetHTransducer (ilabelInfo : List (List Nat)) (ctx : ContextDep)
    (trans : Transitions) (cfg : HTransducerConfig) :
    Option (Fst × List Nat) :=
  (hBuildGo ctx trans cfg 0 ilabelInfo ⟨[], [], []⟩).map (fun acc =>
    (buildHFst acc, natSortDedup acc.disambigSyms))

/-- The index of the ilabel_info entry whose lane the internal state s
belongs to. -/
def laneAt (acc : HAccum) (s : Nat) : Nat :=
  (acc.lanes.getD (s - 2) (0, [])).1

/-- The assembler invariant after processing the first N entries: one start
arc per entry, the k-th carrying output label k and leading either straight
to the shared final (disambiguation lane) or into lane k; every internal
state belongs to the lane of an already-processed entry, all its arcs carry
that lane's output label, and each arc either exits to the shared final or
moves strictly forward within the same lane. -/
def HInv (N : Nat) (acc : HAccum) : Prop :=
  acc.startArcs.length = N ∧
  (∀ k, k < N →
    (acc.startArcs.getD k ⟨0, 0, 0, 0⟩).olabel = k ∧
    ((acc.startArcs.getD k ⟨0, 0, 0, 0⟩).nextstate = 1 ∨
      (2 ≤ (acc.startArcs.getD k ⟨0, 0, 0, 0⟩).nextstate ∧
       (acc.startArcs.getD k ⟨0, 0, 0, 0⟩).nextstate <
         2 + acc.lanes.length ∧
       laneAt acc (acc.startArcs.getD k ⟨0, 0, 0, 0⟩).nextstate = k))) ∧
  (∀ s, 2 ≤ s → s < 2 + acc.lanes.length →
    laneAt acc s < N ∧
    ∀ a ∈ (acc.lanes.getD (s - 2) (0, [])).2,
      a.olabel = laneAt acc s ∧
      (a.nextstate = 1 ∨
        (s < a.nextstate ∧ a.nextstate < 2 + acc.lanes.length ∧
         laneAt acc a.nextstate = laneAt acc s)))

/-- The H transducer assembled from the entries [[5,1,6],[9]] in the
examples: a triphone lane (states 2-4) and a disambiguation pass-through
arc. -/
def exHC4 : Fst :=
  { arcs := [[⟨0, 0, 1, 2⟩, ⟨9, 1, 1, 1⟩], [], [⟨102, 0, 1, 3⟩],
             [⟨112, 0, 1, 4⟩], [⟨0, 0, 1, 1⟩]],
    finals := [0, 1, 0, 0, 0], start := 0 }

/-- The assembler accumulator producing `exHC4`. -/
def exAccC4 : HAccum :=
  { startArcs := [⟨0, 0, 1, 2⟩, ⟨9, 1, 1, 1⟩],
    lanes := [(0, [⟨102, 0, 1, 3⟩]), (0, [⟨112, 0, 1, 4⟩]),
              (0, [⟨0, 0, 1, 1⟩])],
    disambigSyms := [9] }

/-- A two-state transducer with a disambiguation arc (label 7000) and a
transition-id arc (label 102) at its first state. -/
def exFstC6 : Fst :=
  { arcs := [[⟨7000, 7000, 1, 1⟩, ⟨102, 102, 1, 1⟩], []],
    finals := [0, 1], start := 0 }

/-- The result of AddSelfLoops on `exFstC6`: a self-loop of probability 1/2
is inserted, the transition-id arc is rescaled to 1/2, and the
disambiguation arc is untouched. -/
def exGstC6 : Fst :=
  { arcs := [[⟨103, 103, 1/2, 0⟩, ⟨7000, 7000, 1, 1⟩, ⟨102, 102, 1/2, 1⟩],
             []],
    finals := [0, 1], start := 0 }

end KaldiHmm

namespace KaldiHmm

/-- Indexing a mapped range: element s of `(List.range n).map f` is `f s`. -/
theorem getD_range_map {α : Type} (f : Nat → α) (n s : Nat) (hs : s < n)
    (d : α) : ((List.range n).map f).getD s d = f s := by
  simp [List.getD_eq_getElem?_getD, List.getElem?_map, List.getElem?_range, hs]

/-- Indexing the left part of an append. -/
theorem getD_append_lt {α : Type} (A B : List α) (s : Nat)
    (hs : s < A.length) (d : α) : (A ++ B).getD s d = A.getD s d := by
  simp [List.getD_eq_getElem?_getD, List.getElem?_append, hs]

/-- Indexing just past a list: element `A.length` of `A ++ [x]` is `x`. -/
theorem getD_append_last {α : Type} (A : List α) (x d : α) :
    (A ++ [x]).getD A.length d = x := by
  simp [List.getD_eq_getElem?_getD, List.getElem?_append_right (Nat.le_refl _)]

/-- Variant of `getD_append_last` taking the index as an equation. -/
theorem getD_append_at {α : Type} (A : List α) (x d : α) (s : Nat)
    (hs : s = A.length) : (A ++ [x]).getD s d = x := by
  subst hs; exact getD_append_last A x d

/-- Indexing past the end of `A ++ [x]` yields the default. -/
theorem getD_append_past {α : Type} (A : List α) (x d : α) (s : Nat)
    (hs : A.length < s) : (A ++ [x]).getD s d = d := by
  have : (A ++ [x]).length ≤ s := by simpa using hs
  simp [List.getD_eq_getElem?_getD, List.getElem?_eq_none this]


/-- C1: cache determinism of the phone-acceptor compiler.  For any two
context windows with equal central phone and equal Context-Tree
output-distribution sequence, GetHmmAsFsa returns identical results (same
acceptor, bit for bit, and same cache): the compiled acceptor depends only
on the CacheKey, not on the surrounding context phones. -/
theorem getHmmAsFsa_depends_only_on_cache_key
    (ctx : ContextDep) (trans : Transitions) (isl : Bool)
    (cache : List (CacheKey × Fst)) (w1 w2 : List Nat)
    (hlen1 : w1.length = ctx.width) (hlen2 : w2.length = ctx.width)
    (hph : w1.getD ctx.central 0 = w2.getD ctx.central 0)
    (hmap : ctx.map w1 = ctx.map w2) :
    GetHmmAsFsa w1 ctx trans isl cache = GetHmmAsFsa w2 ctx trans isl cache := by
  unfold GetHmmAsFsa
  rw [hlen1, hlen2, hmap, hph]

/-- C1 witness: two concrete distinct windows sharing central phone and
pdf-id sequence compile identically. -/
theorem getHmmAsFsa_depends_only_on_cache_key_witness :
    ([5, 1, 6] : List Nat).length =
        (ContextDep.mk 3 1 (fun w => if w.getD 1 0 = 1 ∧ w.length = 3
          then some [0, 1] else none)).width ∧
    GetHmmAsFsa [5, 1, 6]
        (ContextDep.mk 3 1 (fun w => if w.getD 1 0 = 1 ∧ w.length = 3
          then some [0, 1] else none))
        (Transitions.mk (fun _ => []) (fun _ _ _ _ => 0) (fun _ => none)
          (fun _ => 1) (fun _ => true)) false [] =
      GetHmmAsFsa [7, 1, 8]
        (ContextDep.mk 3 1 (fun w => if w.getD 1 0 = 1 ∧ w.length = 3
          then some [0, 1] else none))
        (Transitions.mk (fun _ => []) (fun _ _ _ _ => 0) (fun _ => none)
          (fun _ => 1) (fun _ => true)) false [] :=
  ⟨by decide,
   getHmmAsFsa_depends_only_on_cache_key _ _ false [] [5, 1, 6] [7, 1, 8]
     (by decide) (by decide) (by decide) (by decide)⟩

/-- The arcs of a self-loop-free compiled acceptor at emitting state i: one
arc per forward transition of HMM state i, with weight p / (1 - q). -/
theorem makeHmmFsa_noLoops_arcs (trans : Transitions) (phone : Nat)
    (pdfSeq : List Nat) (i : Nat) (hi : i < (trans.topo phone).length) :
    (makeHmmFsa trans phone pdfSeq false).arcs.getD i [] =
      ((trans.topo phone).getD i ⟨0, []⟩).fwdTrans.map (fun dp =>
        { ilabel := trans.handleOf phone i false (pdfSeq.getD i 0),
          olabel := trans.handleOf phone i false (pdfSeq.getD i 0),
          weight := dp.2 /
            (1 - ((trans.topo phone).getD i ⟨0, []⟩).selfLoopProb),
          nextstate := dp.1 }) := by
  show ((((List.range (trans.topo phone).length).map
      (hmmStateArcs trans phone pdfSeq false)) ++ [[]]).getD i []) = _
  rw [getD_append_lt _ _ _ (by simpa using hi), getD_range_map _ _ _ hi]
  simp [hmmStateArcs]

/-- Summing a list of products with a constant right factor. -/
theorem sum_map_mul_const (l : List (Nat × ℚ)) (c : ℚ) :
    (l.map (fun dp => dp.2 * c)).sum = (l.map Prod.snd).sum * c := by
  induction l with
  | nil => simp
  | cons hd tl ih => simp [ih, add_mul]

/-- The final weight of a replicated-zero prefix is zero. -/
theorem getD_replicate_zero (n s : Nat) :
    ((List.replicate n (0 : ℚ)).getD s 0) = 0 := by
  simp only [List.getD_eq_getElem?_getD, List.getElem?_replicate]
  split <;> simp

/-- C2: with include_self_loops = false the compiled acceptor contains no
self-loop arc, every forward arc's weight is the topology probability
rescaled by 1 / (1 - q) where q is the state's omitted self-loop
probability, and at every state the outgoing arc weights plus the final
weight sum to 1 (the acceptor is stochastic by construction), provided the
source topology of the window's central phone is stochastic (q plus the
forward probabilities sum to 1, q ≠ 1) and its forward transitions do not
self-target. -/
theorem getHmmAsFsa_noSelfLoops_stochastic
    (w : List Nat) (ctx : ContextDep) (trans : Transitions) (f : Fst)
    (cc : List (CacheKey × Fst))
    (hret : GetHmmAsFsa w ctx trans false [] = some (f, cc))
    (hstoch : ∀ st ∈ trans.topo (w.getD ctx.central 0),
      st.selfLoopProb + (st.fwdTrans.map Prod.snd).sum = 1 ∧
      st.selfLoopProb ≠ 1)
    (hff : ∀ i, i < (trans.topo (w.getD ctx.central 0)).length →
      ∀ dp ∈ ((trans.topo (w.getD ctx.central 0)).getD i ⟨0, []⟩).fwdTrans,
        dp.1 ≠ i) :
    (∀ s, ∀ a ∈ f.arcs.getD s [], a.nextstate ≠ s) ∧
    (∀ s, s < f.arcs.length →
      ((f.arcs.getD s []).map Arc.weight).sum + f.finals.getD s 0 = 1) ∧
    (∀ i, i < (trans.topo (w.getD ctx.central 0)).length →
      (f.arcs.getD i []).map Arc.weight =
        ((trans.topo (w.getD ctx.central 0)).getD i ⟨0, []⟩).fwdTrans.map
          (fun dp => dp.2 /
            (1 - ((trans.topo (w.getD ctx.central 0)).getD i
              ⟨0, []⟩).selfLoopProb))) := by
  unfold GetHmmAsFsa at hret
  by_cases hlen : w.length = ctx.width
  case neg => rw [if_neg hlen] at hret; cases hret
  rw [if_pos hlen] at hret
  cases hmap : ctx.map w with
  | none => rw [hmap] at hret; cases hret
  | some seq =>
  rw [hmap] at hret
  have h1 := Option.some.inj hret
  have hf : makeHmmFsa trans (w.getD ctx.central 0) seq false = f :=
    congrArg Prod.fst h1
  subst hf
  generalize hph : w.getD ctx.central 0 = phone at *
  have harcs_at : ∀ i, i < (trans.topo phone).length →
      (makeHmmFsa trans phone seq false).arcs.getD i [] =
        ((trans.topo phone).getD i ⟨0, []⟩).fwdTrans.map (fun dp =>
          { ilabel := trans.handleOf phone i false (seq.getD i 0),
            olabel := trans.handleOf phone i false (seq.getD i 0),
            weight := dp.2 /
              (1 - ((trans.topo phone).getD i ⟨0, []⟩).selfLoopProb),
            nextstate := dp.1 }) :=
    fun i hi => makeHmmFsa_noLoops_arcs trans phone seq i hi
  have hlast : (makeHmmFsa trans phone seq false).arcs.getD
      (trans.topo phone).length [] = [] := by
    show ((((List.range (trans.topo phone).length).map
        (hmmStateArcs trans phone seq false)) ++ [[]]).getD _ []) = _
    exact getD_append_at _ _ _ _ (by simp)
  have hpast : ∀ s, (trans.topo phone).length < s →
      (makeHmmFsa trans phone seq false).arcs.getD s [] = [] := by
    intro s hs
    show ((((List.range (trans.topo phone).length).map
        (hmmStateArcs trans phone seq false)) ++ [[]]).getD s []) = _
    exact getD_append_past _ _ _ _ (by simpa using hs)
  refine ⟨?_, ?_, ?_⟩
  · intro s a ha
    rcases lt_trichotomy s (trans.topo phone).length with h | h | h
    · rw [harcs_at s h] at ha
      obtain ⟨dp, hdp, hdpa⟩ := List.mem_map.mp ha
      have hne := hff s h dp hdp
      intro hcontra
      apply hne
      rw [← hdpa] at hcontra
      exact hcontra
    · rw [h, hlast] at ha; cases ha
    · rw [hpast s h] at ha; cases ha
  · intro s hs
    have hslen : (makeHmmFsa trans phone seq false).arcs.length =
        (trans.topo phone).length + 1 := by
      show (((List.range (trans.topo phone).length).map
        (hmmStateArcs trans phone seq false)) ++ [[]]).length = _
      simp
    rw [hslen] at hs
    rcases Nat.lt_succ_iff_lt_or_eq.mp hs with h | h
    · rw [harcs_at s h]
      have hfin : (makeHmmFsa trans phone seq false).finals.getD s 0 = 0 := by
        show ((List.replicate (trans.topo phone).length (0 : ℚ) ++
          [(1 : ℚ)]).getD s 0) = 0
        rw [getD_append_lt _ _ _ (by simpa using h), getD_replicate_zero]
      rw [hfin, List.map_map]
      have hst := hstoch ((trans.topo phone).getD s ⟨0, []⟩)
        (by rw [List.getD_eq_getElem _ _ h]; exact List.getElem_mem h)
      have hq1 : (1 : ℚ) -
          ((trans.topo phone).getD s ⟨0, []⟩).selfLoopProb ≠ 0 :=
        sub_ne_zero_of_ne (Ne.symm hst.2)
      have : (Arc.weight ∘ fun dp : Nat × ℚ =>
          ({ ilabel := trans.handleOf phone s false (seq.getD s 0),
             olabel := trans.handleOf phone s false (seq.getD s 0),
             weight := dp.2 /
               (1 - ((trans.topo phone).getD s ⟨0, []⟩).selfLoopProb),
             nextstate := dp.1 } : Arc)) =
          fun dp : Nat × ℚ => dp.2 *
            (1 - ((trans.topo phone).getD s ⟨0, []⟩).selfLoopProb)⁻¹ := by
        funext dp
        simp [div_eq_mul_inv]
      rw [this, sum_map_mul_const]
      have hsum : (((trans.topo phone).getD s ⟨0, []⟩).fwdTrans.map
          Prod.snd).sum =
          1 - ((trans.topo phone).getD s ⟨0, []⟩).selfLoopProb := by
        have := hst.1; linarith
      rw [hsum, add_zero, mul_inv_cancel₀ hq1]
    · subst h
      rw [hlast]
      have hfin : (makeHmmFsa trans phone seq false).finals.getD
          (trans.topo phone).length 0 = 1 := by
        show ((List.replicate (trans.topo phone).length (0 : ℚ) ++
          [(1 : ℚ)]).getD _ 0) = 1
        exact getD_append_at _ _ _ _ (by simp)
      rw [hfin]
      simp
  · intro i hi
    rw [harcs_at i hi, List.map_map]
    rfl

/-- C2 witness: the stochasticity theorem applied to the concrete round-trip
topology (probabilities 1/2, 1/2 and 3/10, 7/10). -/
theorem getHmmAsFsa_noSelfLoops_stochastic_witness :
    GetHmmAsFsa [1] rtCtx rtTrans false [] =
      some (rtFsaNoLoops, [((1, [0, 1]), rtFsaNoLoops)]) ∧
    ((∀ s, ∀ a ∈ rtFsaNoLoops.arcs.getD s [], a.nextstate ≠ s) ∧
     (∀ s, s < rtFsaNoLoops.arcs.length →
       ((rtFsaNoLoops.arcs.getD s []).map Arc.weight).sum +
         rtFsaNoLoops.finals.getD s 0 = 1) ∧
     (∀ i, i < (rtTrans.topo (([1] : List Nat).getD rtCtx.central 0)).length →
       (rtFsaNoLoops.arcs.getD i []).map Arc.weight =
         ((rtTrans.topo (([1] : List Nat).getD rtCtx.central 0)).getD i
           ⟨0, []⟩).fwdTrans.map
           (fun dp => dp.2 /
             (1 - ((rtTrans.topo (([1] : List Nat).getD rtCtx.central
               0)).getD i ⟨0, []⟩).selfLoopProb)))) := by
  have hret : GetHmmAsFsa [1] rtCtx rtTrans false [] =
      some (rtFsaNoLoops, [((1, [0, 1]), rtFsaNoLoops)]) := by
    simp [GetHmmAsFsa, makeHmmFsa, hmmStateArcs, rtTrans, rtCtx,
      rtFsaNoLoops, List.range_succ]
    norm_num
  refine ⟨hret, getHmmAsFsa_noSelfLoops_stochastic [1] rtCtx rtTrans
    rtFsaNoLoops [((1, [0, 1]), rtFsaNoLoops)] hret ?_ ?_⟩
  · intro st hst
    simp only [rtTrans, rtCtx] at hst ⊢
    norm_num at hst
    rcases hst with h | h <;> subst h <;> norm_num
  · intro i hi dp hdp
    simp only [rtTrans, rtCtx] at hi hdp ⊢
    norm_num at hi
    interval_cases i <;> simp_all

/-- C3: the stochasticity round trip.  Compiling phone 1 of the spec's
2-state example topology (self-loop probabilities 1/2 and 3/10, forward
probabilities 1/2 and 7/10) with include_self_loops = false yields a sole
forward arc of probability 1 at each state; applying AddSelfLoops with
use_weights = true and currently_self_loop_free = true to that result
reproduces self-loop arcs of probability 1/2 and 3/10 and rescales the
forward arcs back to 1/2 and 7/10 — exactly the acceptor compiled with
include_self_loops = true (exactly, hence within any floating-point
tolerance). -/
theorem addSelfLoops_roundTrip :
    GetHmmAsFsa [1] rtCtx rtTrans false [] =
      some (rtFsaNoLoops, [((1, [0, 1]), rtFsaNoLoops)]) ∧
    AddSelfLoops rtTrans [] true true rtFsaNoLoops = some rtFsaWithLoops ∧
    GetHmmAsFsa [1] rtCtx rtTrans true [] =
      some (rtFsaWithLoops, [((1, [0, 1]), rtFsaWithLoops)]) := by
  refine ⟨?_, ?_, ?_⟩ <;>
    simp [GetHmmAsFsa, AddSelfLoops, addSelfLoopsPairs, makeHmmFsa,
      hmmStateArcs, addSelfLoopsState, selfLoopInfoAt, hasSelfLoop, rtTrans,
      rtCtx, rtFsaNoLoops, rtFsaWithLoops, isExempt, List.range_succ,
      kNontermBigNumber] <;>
    norm_num

/-- C9: ConvertTransitionIdsToPdfs fails explicitly as an
unimplemented-operation contract violation on every input; it never returns
normally (never silently no-ops). -/
theorem convertTransitionIdsToPdfs_always_fails
    (trans : Transitions) (disambig : List Nat) (f : Fst) :
    (∃ msg, ConvertTransitionIdsToPdfs trans disambig f =
       Except.error msg) ∧
    ∀ g, ConvertTransitionIdsToPdfs trans disambig f ≠ Except.ok g :=
  ⟨⟨"ConvertTransitionIdsToPdfs is not implemented", rfl⟩,
   fun _ h => Except.noConfusion h⟩

/-- A state carries a self-loop exactly when one of its arcs returns to it. -/
theorem hasSelfLoop_iff (s : Nat) (as : List Arc) :
    hasSelfLoop s as = true ↔ ∃ a ∈ as, a.nextstate = s := by
  simp [hasSelfLoop, List.any_eq_true]

/-- C5: AddTransitionProbs multiplies the weight of every arc whose input
label is a transition-id (non-epsilon and neither a disambiguation symbol
nor above the grammar-nonterminal sentinel) by that transition-id's
transition probability, leaves every other arc at its original weight, and
changes nothing else (labels, destinations, final weights, start state).
The Lattice overload applies the identical multiplication to the graph-cost
component only: the acoustic component of every arc is untouched. -/
theorem addTransitionProbs_pointwise (trans : Transitions)
    (disambig : List Nat) (f : Fst) (lat : Lat) :
    (AddTransitionProbs trans disambig f).finals = f.finals ∧
    (AddTransitionProbs trans disambig f).start = f.start ∧
    (∀ (s i : Nat) (a : Arc), (f.arcs[s]?.bind (fun as => as[i]?)) = some a →
      ((AddTransitionProbs trans disambig f).arcs[s]?.bind
          (fun as => as[i]?)) =
        some (if a.ilabel ≠ 0 ∧ ¬ isExempt disambig a.ilabel
          then { a with weight := a.weight * trans.prob a.ilabel }
          else a)) ∧
    (AddTransitionProbsLat trans lat).finals = lat.finals ∧
    (∀ (s i : Nat) (a : LatArc), (lat.arcs[s]?.bind (fun as => as[i]?)) = some a →
      ((AddTransitionProbsLat trans lat).arcs[s]?.bind
          (fun as => as[i]?)) =
        some { a with graph := if a.ilabel ≠ 0
          then a.graph * trans.prob a.ilabel else a.graph }) := by
  refine ⟨rfl, rfl, ?_, rfl, ?_⟩
  · intro s i a h
    show ((f.arcs.map (List.map (addTransProbArc trans disambig)))[s]?.bind
      (fun as => as[i]?)) = _
    rw [List.getElem?_map]
    cases hs : f.arcs[s]? with
    | none => rw [hs] at h; cases h
    | some as =>
      rw [hs] at h
      rw [Option.some_bind'] at h
      simp only [Option.some_bind', List.getElem?_map, h, Option.map_some']
      unfold addTransProbArc
      rfl
  · intro s i a h
    show ((lat.arcs.map (List.map (addTransProbLatArc trans)))[s]?.bind
      (fun as => as[i]?)) = _
    rw [List.getElem?_map]
    cases hs : lat.arcs[s]? with
    | none => rw [hs] at h; cases h
    | some as =>
      rw [hs] at h
      rw [Option.some_bind'] at h
      simp only [Option.some_bind', List.getElem?_map, h, Option.map_some']
      by_cases hc : a.ilabel ≠ 0 <;> simp [addTransProbLatArc, hc]

/-- C5 witness: the pointwise theorem applied to a concrete transducer (one
transition-id arc of probability weight 1, one disambiguation arc) and a
concrete lattice (one transition-id arc with graph weight 1, acoustic
weight 3). -/
theorem addTransitionProbs_pointwise_witness :
    (((Fst.mk [[Arc.mk 102 102 1 1, Arc.mk 7000 7000 1 1]] [0, 1]
        0).arcs[0]?.bind (fun as => as[0]?)) =
      some (Arc.mk 102 102 1 1)) ∧
    (((AddTransitionProbs rtTrans [7000]
        (Fst.mk [[Arc.mk 102 102 1 1, Arc.mk 7000 7000 1 1]] [0, 1]
          0)).arcs[0]?.bind (fun as => as[0]?)) =
      some (if (Arc.mk 102 102 1 1).ilabel ≠ 0 ∧
          ¬ isExempt [7000] (Arc.mk 102 102 1 1).ilabel
        then { (Arc.mk 102 102 1 1) with weight := ((Arc.mk 102 102 1 1).weight * rtTrans.prob (Arc.mk 102 102 1 1).ilabel) }
        else Arc.mk 102 102 1 1)) ∧
    (((AddTransitionProbsLat rtTrans
        (Lat.mk [[LatArc.mk 102 102 1 3 1]] [(1, 1)] 0)).arcs[0]?.bind
        (fun as => as[0]?)) =
      some { (LatArc.mk 102 102 1 3 1) with graph := (if (LatArc.mk 102 102 1 3 1).ilabel ≠ 0 then (LatArc.mk 102 102 1 3 1).graph * rtTrans.prob (LatArc.mk 102 102 1 3 1).ilabel else (LatArc.mk 102 102 1 3 1).graph) }) :=
  ⟨rfl,
   (addTransitionProbs_pointwise rtTrans [7000]
      (Fst.mk [[Arc.mk 102 102 1 1, Arc.mk 7000 7000 1 1]] [0, 1] 0)
      (Lat.mk [[LatArc.mk 102 102 1 3 1]] [(1, 1)] 0)).2.2.1 0 0 _ rfl,
   (addTransitionProbs_pointwise rtTrans [7000]
      (Fst.mk [[Arc.mk 102 102 1 1, Arc.mk 7000 7000 1 1]] [0, 1] 0)
      (Lat.mk [[LatArc.mk 102 102 1 3 1]] [(1, 1)] 0)).2.2.2.2 0 0 _ rfl⟩

/-- The self-loop association only depends on the disambiguation list
through the exemption predicate. -/
theorem selfLoopInfoAt_congr (trans : Transitions) (d1 d2 : List Nat)
    (hiff : ∀ l, isExempt d1 l = isExempt d2 l) (as : List Arc) :
    selfLoopInfoAt trans d1 as = selfLoopInfoAt trans d2 as := by
  induction as with
  | nil => rfl
  | cons a rest ih =>
    unfold selfLoopInfoAt
    rw [hiff, ih]

/-- The per-state mutation only depends on the disambiguation list through
the exemption predicate. -/
theorem addSelfLoopsState_congr (trans : Transitions) (d1 d2 : List Nat)
    (hiff : ∀ l, isExempt d1 l = isExempt d2 l) (uw : Bool) (s : Nat)
    (as : List Arc) (fw : ℚ) :
    addSelfLoopsState trans d1 uw s as fw =
      addSelfLoopsState trans d2 uw s as fw := by
  unfold addSelfLoopsState
  rw [selfLoopInfoAt_congr trans d1 d2 hiff as]
  cases selfLoopInfoAt trans d2 as with
  | none => rfl
  | some hq =>
    simp only [hiff]

/-- Rescaling the non-exempt arcs of a state leaves the exempt arcs of the
state unchanged (same sublist). -/
theorem filter_exempt_rescale (d : List Nat) (q : ℚ) (as : List Arc) :
    ((as.map (fun a => if isExempt d a.ilabel then a
        else { a with weight := a.weight * (1 - q) })).filter
      (fun a => isExempt d a.ilabel)) =
      as.filter (fun a => isExempt d a.ilabel) := by
  induction as with
  | nil => rfl
  | cons a rest ih =>
    cases hp : isExempt d a.ilabel with
    | true => simp [hp, ih]
    | false => simp [hp, ih]

/-- A state all of whose arcs are exempt induces no self-loop. -/
theorem selfLoopInfoAt_all_exempt (trans : Transitions) (d : List Nat)
    (as : List Arc) (hall : ∀ a ∈ as, isExempt d a.ilabel = true) :
    selfLoopInfoAt trans d as = none := by
  induction as with
  | nil => rfl
  | cons a rest ih =>
    have ha := hall a (List.mem_cons_self a rest)
    unfold selfLoopInfoAt
    rw [ha]
    simp only [not_true, and_false, if_false]
    exact ih (fun b hb => hall b (List.mem_cons_of_mem a hb))

/-- A successful AddSelfLoops call returns exactly the per-state rewritten
automaton. -/
theorem addSelfLoops_some_eq (trans : Transitions) (d : List Nat)
    (cslf uw : Bool) (f g : Fst)
    (hg : AddSelfLoops trans d cslf uw f = some g) :
    g = { arcs := (addSelfLoopsPairs trans d uw f).map Prod.fst,
          finals := (addSelfLoopsPairs trans d uw f).map Prod.snd,
          start := f.start } := by
  unfold AddSelfLoops at hg
  split at hg
  · cases hg
  · exact (Option.some.inj hg).symm

/-- C6: after AddSelfLoops, every arc whose input label is a disambiguation
symbol or exceeds the grammar-nonterminal sentinel is unchanged (the exempt
arcs of every state form the same weighted sublist as before); a state all
of whose arcs are exempt triggers no self-loop insertion and no rescaling
at all; and the disambiguation list influences the mutation only through
the exemption predicate (two lists classifying every label identically give
identical results).  The hypothesis `hH` says the inserted self-loop labels
are themselves real transition-ids, not exempt symbols. -/
theorem addSelfLoops_exempt_unchanged (trans : Transitions) (d : List Nat)
    (cslf uw : Bool) (f g : Fst)
    (hH : ∀ s, s < f.arcs.length →
      Option.all (fun hq => ! isExempt d hq.1)
        (selfLoopInfoAt trans d (f.arcs.getD s [])) = true)
    (hg : AddSelfLoops trans d cslf uw f = some g) :
    (∀ s, s < f.arcs.length →
      ((g.arcs.getD s []).filter (fun a => isExempt d a.ilabel)) =
        ((f.arcs.getD s []).filter (fun a => isExempt d a.ilabel))) ∧
    (∀ s, s < f.arcs.length →
      (∀ a ∈ f.arcs.getD s [], isExempt d a.ilabel = true) →
      g.arcs.getD s [] = f.arcs.getD s [] ∧
      g.finals.getD s 0 = f.finals.getD s 0) ∧
    (∀ d2, (∀ l, isExempt d l = isExempt d2 l) →
      AddSelfLoops trans d cslf uw f = AddSelfLoops trans d2 cslf uw f) := by
  have hgeq := addSelfLoops_some_eq trans d cslf uw f g hg
  subst hgeq
  have harc : ∀ s, s < f.arcs.length →
      ((addSelfLoopsPairs trans d uw f).map Prod.fst).getD s [] =
        ((addSelfLoopsPairs trans d uw f).getD s ([], 0)).1 := by
    intro s hs
    unfold addSelfLoopsPairs
    rw [List.map_map, getD_range_map _ _ _ hs, getD_range_map _ _ _ hs]
    rfl
  have hfin : ∀ s, s < f.arcs.length →
      ((addSelfLoopsPairs trans d uw f).map Prod.snd).getD s 0 =
        ((addSelfLoopsPairs trans d uw f).getD s ([], 0)).2 := by
    intro s hs
    unfold addSelfLoopsPairs
    rw [List.map_map, getD_range_map _ _ _ hs, getD_range_map _ _ _ hs]
    rfl
  have hpair : ∀ s, s < f.arcs.length →
      (addSelfLoopsPairs trans d uw f).getD s ([], 0) =
        (if hasSelfLoop s (f.arcs.getD s [])
         then (f.arcs.getD s [], f.finals.getD s 0)
         else addSelfLoopsState trans d uw s (f.arcs.getD s [])
           (f.finals.getD s 0)) := by
    intro s hs
    unfold addSelfLoopsPairs
    rw [getD_range_map _ _ _ hs]
  refine ⟨?_, ?_, ?_⟩
  · intro s hs
    show ((((addSelfLoopsPairs trans d uw f).map Prod.fst).getD s
      []).filter _) = _
    rw [harc s hs, hpair s hs]
    cases hSL : hasSelfLoop s (f.arcs.getD s []) with
    | true => rfl
    | false =>
      rw [if_neg Bool.false_ne_true]
      unfold addSelfLoopsState
      cases hinfo : selfLoopInfoAt trans d (f.arcs.getD s []) with
      | none => rfl
      | some hq =>
        obtain ⟨h, q⟩ := hq
        have hHs := hH s hs
        rw [hinfo] at hHs
        simp only [Option.all_some, Bool.not_eq_true'] at hHs
        cases huw : uw with
        | true =>
          simp only [if_pos rfl]
          show (List.filter _ (_ :: _)) = _
          rw [List.filter_cons_of_neg (by simpa using hHs)]
          exact filter_exempt_rescale d q (f.arcs.getD s [])
        | false =>
          simp only [Bool.false_eq_true, if_false]
          show (List.filter _ (_ :: _)) = _
          rw [List.filter_cons_of_neg (by simpa using hHs)]
  · intro s hs hall
    constructor
    · show (((addSelfLoopsPairs trans d uw f).map Prod.fst).getD s []) = _
      rw [harc s hs, hpair s hs]
      cases hSL : hasSelfLoop s (f.arcs.getD s []) with
      | true => rfl
      | false =>
        rw [if_neg Bool.false_ne_true]
        unfold addSelfLoopsState
        rw [selfLoopInfoAt_all_exempt trans d _ hall]
    · show (((addSelfLoopsPairs trans d uw f).map Prod.snd).getD s 0) = _
      rw [hfin s hs, hpair s hs]
      cases hSL : hasSelfLoop s (f.arcs.getD s []) with
      | true => rfl
      | false =>
        rw [if_neg Bool.false_ne_true]
        unfold addSelfLoopsState
        rw [selfLoopInfoAt_all_exempt trans d _ hall]
  · intro d2 hiff
    unfold AddSelfLoops addSelfLoopsPairs
    have hst : ∀ s, addSelfLoopsState trans d uw s (f.arcs.getD s [])
        (f.finals.getD s 0) = addSelfLoopsState trans d2 uw s
        (f.arcs.getD s []) (f.finals.getD s 0) :=
      fun s => addSelfLoopsState_congr trans d d2 hiff uw s _ _
    simp only [hst]

/-- C6 witness: the exemption theorem applied to `exFstC6`; the
disambiguation arc survives AddSelfLoops unchanged. -/
theorem addSelfLoops_exempt_unchanged_witness :
    (∀ s, s < exFstC6.arcs.length →
      Option.all (fun hq => ! isExempt [7000] hq.1)
        (selfLoopInfoAt rtTrans [7000] (exFstC6.arcs.getD s [])) = true) ∧
    AddSelfLoops rtTrans [7000] true true exFstC6 = some exGstC6 ∧
    ((exGstC6.arcs.getD 0 []).filter (fun a => isExempt [7000] a.ilabel)) =
      ((exFstC6.arcs.getD 0 []).filter (fun a => isExempt [7000] a.ilabel))
    := by
  have hH : ∀ s, s < exFstC6.arcs.length →
      Option.all (fun hq => ! isExempt [7000] hq.1)
        (selfLoopInfoAt rtTrans [7000] (exFstC6.arcs.getD s [])) = true := by
    intro s hs
    simp only [exFstC6] at hs
    norm_num at hs
    interval_cases s <;>
      simp [selfLoopInfoAt, isExempt, rtTrans, exFstC6, kNontermBigNumber]
  have hg : AddSelfLoops rtTrans [7000] true true exFstC6 = some exGstC6 := by
    simp [AddSelfLoops, addSelfLoopsPairs, addSelfLoopsState, selfLoopInfoAt,
      hasSelfLoop, rtTrans, isExempt, exFstC6, exGstC6, kNontermBigNumber,
      List.range_succ]
    norm_num
  exact ⟨hH, hg, (addSelfLoops_exempt_unchanged rtTrans [7000] true true
    exFstC6 exGstC6 hH hg).1 0 (by simp [exFstC6])⟩

/-- C7: the currently_self_loop_free contract of AddSelfLoops.  With
currently_self_loop_free = true the call fails fatally (modelled as `none`)
if and only if some state of the input already carries a self-loop; with
currently_self_loop_free = false it never fails, and every state that
already has a self-loop is left untouched (same arcs, same final weight, in
particular no duplicate self-loop). -/
theorem addSelfLoops_contract (trans : Transitions) (disambig : List Nat)
    (uw : Bool) (f : Fst) :
    (AddSelfLoops trans disambig true uw f = none ↔
      ∃ s < f.arcs.length, ∃ a ∈ f.arcs.getD s [], a.nextstate = s) ∧
    (AddSelfLoops trans disambig false uw f).isSome = true ∧
    (∀ g, AddSelfLoops trans disambig false uw f = some g →
      ∀ s, s < f.arcs.length → hasSelfLoop s (f.arcs.getD s []) = true →
      g.arcs.getD s [] = f.arcs.getD s [] ∧
      g.finals.getD s 0 = f.finals.getD s 0) := by
  have key : ((List.range f.arcs.length).any
      (fun s => hasSelfLoop s (f.arcs.getD s []))) = true ↔
      ∃ s < f.arcs.length, ∃ a ∈ f.arcs.getD s [], a.nextstate = s := by
    simp only [List.any_eq_true, List.mem_range, hasSelfLoop_iff]
  refine ⟨?_, ?_, ?_⟩
  · cases hb : (List.range f.arcs.length).any
        (fun s => hasSelfLoop s (f.arcs.getD s [])) with
    | true =>
      have hnone : AddSelfLoops trans disambig true uw f = none := by
        unfold AddSelfLoops
        rw [Bool.true_and, hb]
        rfl
      rw [hnone]
      exact iff_of_true rfl (key.mp hb)
    | false =>
      have hsome : (AddSelfLoops trans disambig true uw f).isSome = true := by
        unfold AddSelfLoops
        rw [Bool.true_and, hb]
        rfl
      constructor
      · intro h; rw [h] at hsome; cases hsome
      · intro h
        rw [key.mpr h] at hb; cases hb
  · simp [AddSelfLoops]
  · intro g hg s hs hsl
    have hval : AddSelfLoops trans disambig false uw f =
        some { arcs := (addSelfLoopsPairs trans disambig uw f).map Prod.fst,
               finals := (addSelfLoopsPairs trans disambig uw f).map
                 Prod.snd,
               start := f.start } := rfl
    rw [hval] at hg
    have hg2 := Option.some.inj hg
    subst hg2
    unfold addSelfLoopsPairs
    have hsl2 : hasSelfLoop s (f.arcs[s]?.getD []) = true := by
      rw [← List.getD_eq_getElem?_getD]; exact hsl
    constructor
    · show ((((List.range f.arcs.length).map _).map Prod.fst).getD s []) = _
      rw [List.map_map, getD_range_map _ _ _ hs]
      simp [hsl, hsl2]
    · show ((((List.range f.arcs.length).map _).map Prod.snd).getD s 0) = _
      rw [List.map_map, getD_range_map _ _ _ hs]
      simp [hsl, hsl2]

/-- C7 witness: on a one-state FST whose single arc is a self-loop, the
checked call fails and the unchecked call succeeds leaving the state
untouched. -/
theorem addSelfLoops_contract_witness :
    AddSelfLoops rtTrans [] true true
      (Fst.mk [[⟨5, 5, 1, 0⟩]] [1] 0) = none ∧
    (AddSelfLoops rtTrans [] false true
      (Fst.mk [[⟨5, 5, 1, 0⟩]] [1] 0)).isSome = true := by
  have h := addSelfLoops_contract rtTrans [] true
    (Fst.mk [[⟨5, 5, 1, 0⟩]] [1] 0)
  exact ⟨h.1.mpr ⟨0, by norm_num, ⟨5, 5, 1, 0⟩, by norm_num, rfl⟩, h.2.1⟩

/-- C10: HmmCacheHash is a deterministic pure function of its argument: two
cache keys with equal central phone and equal pdf-id vector receive equal
hash values (the property the cache's insert-if-absent lookup relies on),
and the value is the source's formula 103049 * p.first + vhash p.second,
wrapped to a 32-bit machine int. -/
theorem hmmCacheHash_deterministic (vhash : List Int → Int)
    (p q : Int × List Int) (h1 : p.1 = q.1) (h2 : p.2 = q.2) :
    HmmCacheHash vhash p = HmmCacheHash vhash q ∧
    HmmCacheHash vhash p = wrap32 (103049 * p.1 + vhash p.2) := by
  constructor
  · unfold HmmCacheHash
    rw [h1, h2]
  · rfl

/-- C10 witness: the determinism theorem applied at a concrete key. -/
theorem hmmCacheHash_deterministic_witness :
    ((3 : Int), ([4, 5] : List Int)).1 = ((3 : Int), ([4, 5] : List Int)).1 ∧
    (HmmCacheHash (fun l => l.foldl (fun a x => 7853 * a + x) 0)
        (3, [4, 5]) =
      HmmCacheHash (fun l => l.foldl (fun a x => 7853 * a + x) 0)
        (3, [4, 5]) ∧
     HmmCacheHash (fun l => l.foldl (fun a x => 7853 * a + x) 0)
        (3, [4, 5]) =
      wrap32 (103049 * 3 +
        ([4, 5] : List Int).foldl (fun a x => 7853 * a + x) 0)) :=
  ⟨rfl, hmmCacheHash_deterministic _ (3, [4, 5]) (3, [4, 5]) rfl rfl⟩



/-- The key list of a successful canonicalization has one key per entry. -/
theorem ilabelKeys_length (ctx : ContextDep) (trans : Transitions) :
    ∀ (i : Nat) (entries : List (List Nat)) (ks : List IlabelKey),
      ilabelKeys ctx trans i entries = some ks →
      ks.length = entries.length := by
  intro i entries
  induction entries generalizing i with
  | nil =>
    intro ks h
    cases Option.some.inj h
    rfl
  | cons e rest ih =>
    intro ks h
    unfold ilabelKeys at h
    cases hk : entryKey ctx trans i e with
    | none => rw [hk] at h; cases h
    | some k0 =>
      rw [hk, Option.some_bind'] at h
      cases hrest : ilabelKeys ctx trans (i + 1) rest with
      | none => rw [hrest] at h; cases h
      | some ks0 =>
        rw [hrest, Option.map_some'] at h
        cases Option.some.inj h
        simp [ih (i + 1) ks0 hrest]

/-- The key of a single entry is a position key only for that position. -/
theorem entryKey_inr (ctx : ContextDep) (trans : Transitions) (i : Nat)
    (e : List Nat) (t : Nat)
    (h : entryKey ctx trans i e = some (Sum.inr t)) : t = i := by
  unfold entryKey at h
  by_cases hd : isDisambigEntry trans e = true
  · rw [if_pos hd] at h
    cases Option.some.inj h
    rfl
  · rw [if_neg hd] at h
    by_cases hw : e.length = ctx.width
    · rw [if_pos hw] at h
      cases hm : ctx.map e with
      | none => rw [hm] at h; cases h
      | some sq =>
        rw [hm, Option.map_some'] at h
        cases Option.some.inj h
    · rw [if_neg hw] at h
      cases h

/-- A position key inside the key list always carries its own position. -/
theorem ilabelKeys_inr (ctx : ContextDep) (trans : Transitions) :
    ∀ (i : Nat) (entries : List (List Nat)) (ks : List IlabelKey),
      ilabelKeys ctx trans i entries = some ks →
      ∀ j t, j < ks.length → ks.getD j (Sum.inr 0) = Sum.inr t →
      t = i + j := by
  intro i entries
  induction entries generalizing i with
  | nil =>
    intro ks h j t hj
    cases Option.some.inj h
    cases hj
  | cons e rest ih =>
    intro ks h j t hj hkey
    unfold ilabelKeys at h
    cases hk : entryKey ctx trans i e with
    | none => rw [hk] at h; cases h
    | some k0 =>
      rw [hk, Option.some_bind'] at h
      cases hrest : ilabelKeys ctx trans (i + 1) rest with
      | none => rw [hrest] at h; cases h
      | some ks0 =>
        rw [hrest, Option.map_some'] at h
        cases Option.some.inj h
        cases j with
        | zero =>
          have hcast : k0 = Sum.inr t := hkey
          rw [hcast] at hk
          have := entryKey_inr ctx trans i e t hk
          simpa using this
        | succ j0 =>
          have hj0 : j0 < ks0.length := by simpa using hj
          have hkey0 : ks0.getD j0 (Sum.inr 0) = Sum.inr t := hkey
          have := ih (i + 1) ks0 hrest j0 t hj0 hkey0
          rw [this]
          ring

/-- A disambiguation entry is keyed by its own position. -/
theorem ilabelKeys_disambig (ctx : ContextDep) (trans : Transitions) :
    ∀ (i : Nat) (entries : List (List Nat)) (ks : List IlabelKey),
      ilabelKeys ctx trans i entries = some ks →
      ∀ j, j < entries.length →
      isDisambigEntry trans (entries.getD j []) = true →
      ks.getD j (Sum.inr 0) = Sum.inr (i + j) := by
  intro i entries
  induction entries generalizing i with
  | nil =>
    intro ks _ j hj
    cases hj
  | cons e rest ih =>
    intro ks h j hj hdis
    unfold ilabelKeys at h
    cases hk : entryKey ctx trans i e with
    | none => rw [hk] at h; cases h
    | some k0 =>
      rw [hk, Option.some_bind'] at h
      cases hrest : ilabelKeys ctx trans (i + 1) rest with
      | none => rw [hrest] at h; cases h
      | some ks0 =>
        rw [hrest, Option.map_some'] at h
        cases Option.some.inj h
        cases j with
        | zero =>
          have hdis0 : isDisambigEntry trans e = true := hdis
          unfold entryKey at hk
          rw [if_pos hdis0] at hk
          have hval : Sum.inr i = k0 := Option.some.inj hk
          show k0 = Sum.inr (i + 0)
          simp [← hval]
        | succ j0 =>
          have hj0 : j0 < rest.length := by simpa using hj
          have hdis0 : isDisambigEntry trans (rest.getD j0 []) = true := hdis
          have := ih (i + 1) ks0 hrest j0 hj0 hdis0
          show ks0.getD j0 (Sum.inr 0) = _
          rw [this]
          congr 1
          ring

/-- Membership is preserved by first-occurrence deduplication. -/
theorem mem_firstDedup (x : IlabelKey) :
    ∀ l : List IlabelKey, (x ∈ firstDedup l ↔ x ∈ l) := by
  intro l
  induction l with
  | nil => exact Iff.rfl
  | cons k ks ih =>
    unfold firstDedup
    by_cases hx : x = k
    · simp [hx]
    · simp [List.mem_filter, hx, ih]

/-- Deduplication does not lengthen a list. -/
theorem length_firstDedup_le :
    ∀ l : List IlabelKey, (firstDedup l).length ≤ l.length := by
  intro l
  induction l with
  | nil => exact Nat.le_refl 0
  | cons k ks ih =>
    unfold firstDedup
    have hf := List.length_filter_le (fun x => decide (x ≠ k))
      (firstDedup ks)
    simpa using Nat.le_trans hf ih

/-- Indexing a mapped list inside its bounds. -/
theorem getD_map_of_lt {α β : Type} (f : α → β) (l : List α) (c : Nat)
    (hc : c < l.length) (d : β) (d0 : α) :
    (l.map f).getD c d = f (l.getD c d0) := by
  rw [List.getD_eq_getElem _ _ (by simpa using hc),
      List.getD_eq_getElem _ _ hc]
  simp

/-- An in-bounds default-indexed element is a member. -/
theorem getD_mem {α : Type} (l : List α) (c : Nat) (hc : c < l.length)
    (d : α) : l.getD c d ∈ l := by
  rw [List.getD_eq_getElem _ _ hc]
  exact List.getElem_mem hc

/-- The first-occurrence index of a member is in bounds. -/
theorem keyIndexOf_lt_length (x : IlabelKey) :
    ∀ l : List IlabelKey, x ∈ l → keyIndexOf x l < l.length := by
  intro l
  induction l with
  | nil => intro hx; cases hx
  | cons k ks ih =>
    intro hx
    unfold keyIndexOf
    by_cases hk : k = x
    · simp [hk]
    · rw [if_neg hk]
      have hx2 : x ∈ ks := by
        cases List.mem_cons.mp hx with
        | inl h => exact absurd h.symm hk
        | inr h => exact h
      simpa using ih hx2

/-- Looking a member back up by its first-occurrence index recovers it. -/
theorem getD_keyIndexOf (x : IlabelKey) (d : IlabelKey) :
    ∀ l : List IlabelKey, x ∈ l → l.getD (keyIndexOf x l) d = x := by
  intro l
  induction l with
  | nil => intro hx; cases hx
  | cons k ks ih =>
    intro hx
    unfold keyIndexOf
    by_cases hk : k = x
    · simp [hk]
    · rw [if_neg hk]
      have hx2 : x ∈ ks := by
        cases List.mem_cons.mp hx with
        | inl h => exact absurd h.symm hk
        | inr h => exact h
      simpa using ih hx2

/-- Two members with the same first-occurrence index are equal. -/
theorem keyIndexOf_inj (x y : IlabelKey) :
    ∀ l : List IlabelKey, x ∈ l → y ∈ l →
      keyIndexOf x l = keyIndexOf y l → x = y := by
  intro l
  induction l with
  | nil => intro hx; cases hx
  | cons k ks ih =>
    intro hx hy heq
    unfold keyIndexOf at heq
    by_cases hkx : k = x
    · by_cases hky : k = y
      · rw [← hkx, ← hky]
      · rw [if_pos hkx, if_neg hky] at heq
        cases heq
    · by_cases hky : k = y
      · rw [if_neg hkx, if_pos hky] at heq
        cases heq
      · rw [if_neg hkx, if_neg hky] at heq
        have hx2 : x ∈ ks := by
          cases List.mem_cons.mp hx with
          | inl h => exact absurd h.symm hkx
          | inr h => exact h
        have hy2 : y ∈ ks := by
          cases List.mem_cons.mp hy with
          | inl h => exact absurd h.symm hky
          | inr h => exact h
        exact ih hx2 hy2 (Nat.succ_injective heq)

/-- C8: soundness of GetIlabelMapping.  old2new_map is no longer than
ilabel_info_old; each of its entries is a valid index into
ilabel_info_old; the representative of class c has the same key as every
entry mapped into class c (class membership being "the key's index in the
deduplicated key list is c"); and a disambiguation entry shares its class
with no other entry — it remains a singleton class. -/
theorem getIlabelMapping_sound (entries : List (List Nat))
    (ctx : ContextDep) (trans : Transitions) (ks : List IlabelKey)
    (m : List Nat)
    (hks : ilabelKeys ctx trans 0 entries = some ks)
    (hm : GetIlabelMapping entries ctx trans = some m) :
    m.length ≤ entries.length ∧
    (∀ c, c < m.length → m.getD c 0 < entries.length) ∧
    (∀ c j, c < m.length → j < ks.length →
      keyIndexOf (ks.getD j (Sum.inr 0)) (firstDedup ks) = c →
      ks.getD (m.getD c 0) (Sum.inr 0) = ks.getD j (Sum.inr 0)) ∧
    (∀ j j2, j < entries.length → j2 < entries.length →
      isDisambigEntry trans (entries.getD j []) = true →
      keyIndexOf (ks.getD j (Sum.inr 0)) (firstDedup ks) =
        keyIndexOf (ks.getD j2 (Sum.inr 0)) (firstDedup ks) →
      j = j2) := by
  have hlen : ks.length = entries.length :=
    ilabelKeys_length ctx trans 0 entries ks hks
  have hmval : m = (firstDedup ks).map (fun k => keyIndexOf k ks) := by
    unfold GetIlabelMapping at hm
    rw [hks, Option.map_some'] at hm
    exact (Option.some.inj hm).symm
  subst hmval
  have hmlen : ((firstDedup ks).map (fun k => keyIndexOf k ks)).length =
      (firstDedup ks).length := List.length_map _ _
  refine ⟨?_, ?_, ?_, ?_⟩
  · rw [hmlen, ← hlen]
    exact length_firstDedup_le ks
  · intro c hc
    rw [hmlen] at hc
    rw [getD_map_of_lt _ _ c hc 0 (Sum.inr 0)]
    have hkmem : (firstDedup ks).getD c (Sum.inr 0) ∈ ks :=
      (mem_firstDedup _ ks).mp (getD_mem _ c hc _)
    rw [← hlen]
    exact keyIndexOf_lt_length _ ks hkmem
  · intro c j hc hj hcl
    rw [hmlen] at hc
    rw [getD_map_of_lt _ _ c hc 0 (Sum.inr 0)]
    have hkjmem : ks.getD j (Sum.inr 0) ∈ ks := getD_mem _ j hj _
    have hkjded : ks.getD j (Sum.inr 0) ∈ firstDedup ks :=
      (mem_firstDedup _ ks).mpr hkjmem
    have hrep : (firstDedup ks).getD c (Sum.inr 0) =
        ks.getD j (Sum.inr 0) := by
      rw [← hcl]
      exact getD_keyIndexOf _ _ (firstDedup ks) hkjded
    rw [hrep]
    exact getD_keyIndexOf _ _ ks hkjmem
  · intro j j2 hj hj2 hdis heq
    have hkj : ks.getD j (Sum.inr 0) = Sum.inr j := by
      have := ilabelKeys_disambig ctx trans 0 entries ks hks j hj hdis
      simpa using this
    have hjk : j < ks.length := by rw [hlen]; exact hj
    have hj2k : j2 < ks.length := by rw [hlen]; exact hj2
    have hmem1 : ks.getD j (Sum.inr 0) ∈ firstDedup ks :=
      (mem_firstDedup _ ks).mpr (getD_mem _ j hjk _)
    have hmem2 : ks.getD j2 (Sum.inr 0) ∈ firstDedup ks :=
      (mem_firstDedup _ ks).mpr (getD_mem _ j2 hj2k _)
    have hkk : ks.getD j (Sum.inr 0) = ks.getD j2 (Sum.inr 0) :=
      keyIndexOf_inj _ _ (firstDedup ks) hmem1 hmem2 heq
    rw [hkj] at hkk
    have := ilabelKeys_inr ctx trans 0 entries ks hks j2 j hj2k hkk.symm
    simpa using this

/-- C8 witness: three entries — two triphone windows with the same key and
one disambiguation singleton — canonicalize to the map [0, 2]. -/
theorem getIlabelMapping_sound_witness :
    ilabelKeys exCtxC8 rtTrans 0 [[5, 1, 6], [7, 1, 8], [9]] =
      some [Sum.inl (1, [0, 1]), Sum.inl (1, [0, 1]), Sum.inr 2] ∧
    GetIlabelMapping [[5, 1, 6], [7, 1, 8], [9]] exCtxC8 rtTrans =
      some [0, 2] ∧
    ([0, 2] : List Nat).length ≤
      ([[5, 1, 6], [7, 1, 8], [9]] : List (List Nat)).length := by
  have hks : ilabelKeys exCtxC8 rtTrans 0 [[5, 1, 6], [7, 1, 8], [9]] =
      some [Sum.inl (1, [0, 1]), Sum.inl (1, [0, 1]), Sum.inr 2] := by
    simp [ilabelKeys, entryKey, isDisambigEntry, exCtxC8, rtTrans,
      kNontermBigNumber]
  have hm : GetIlabelMapping [[5, 1, 6], [7, 1, 8], [9]] exCtxC8 rtTrans =
      some [0, 2] := by
    rw [GetIlabelMapping, hks]
    simp [firstDedup, keyIndexOf]
  exact ⟨hks, hm, (getIlabelMapping_sound _ exCtxC8 rtTrans _ _ hks hm).1⟩

/-- Indexing the right part of an append at an offset index. -/
theorem getD_append_right_len {α : Type} (A B : List α) (t : Nat) (d : α) :
    (A ++ B).getD (A.length + t) d = B.getD t d := by
  simp only [List.getD_eq_getElem?_getD,
    List.getElem?_append_right (Nat.le_add_right A.length t),
    Nat.add_sub_cancel_left]

/-- A GetHmmAsFsa call on an empty cache returns the acceptor built from
the window's cache key. -/
theorem getHmmAsFsa_emptyCache (w : List Nat) (ctx : ContextDep)
    (trans : Transitions) (isl : Bool) (f : Fst)
    (cc : List (CacheKey × Fst))
    (h : GetHmmAsFsa w ctx trans isl [] = some (f, cc)) :
    ∃ seq, ctx.map w = some seq ∧
      f = makeHmmFsa trans (w.getD ctx.central 0) seq isl := by
  unfold GetHmmAsFsa at h
  by_cases hlen : w.length = ctx.width
  · rw [if_pos hlen] at h
    cases hmap : ctx.map w with
    | none => rw [hmap] at h; cases h
    | some seq =>
      rw [hmap] at h
      refine ⟨seq, rfl, ?_⟩
      exact (congrArg Prod.fst (Option.some.inj h)).symm
  · rw [if_neg hlen] at h
    cases h

/-- The compiled acceptor has one state per topology state plus the final
state. -/
theorem makeHmmFsa_arcs_length (trans : Transitions) (phone : Nat)
    (pdfSeq : List Nat) (isl : Bool) :
    (makeHmmFsa trans phone pdfSeq isl).arcs.length =
      (trans.topo phone).length + 1 := by
  show (((List.range (trans.topo phone).length).map
    (hmmStateArcs trans phone pdfSeq isl)) ++ [[]]).length = _
  simp

/-- States at or past the final state of a compiled acceptor have no
arcs. -/
theorem makeHmmFsa_arcs_ge (trans : Transitions) (phone : Nat)
    (pdfSeq : List Nat) (isl : Bool) (j : Nat)
    (hj : (trans.topo phone).length ≤ j) :
    (makeHmmFsa trans phone pdfSeq isl).arcs.getD j [] = [] := by
  show ((((List.range (trans.topo phone).length).map
    (hmmStateArcs trans phone pdfSeq isl)) ++ [[]]).getD j []) = _
  rcases Nat.eq_or_lt_of_le hj with h | h
  · exact getD_append_at _ _ _ _ (by simpa using h.symm)
  · exact getD_append_past _ _ _ _ (by simpa using h)

/-- In a feed-forward topology, every arc of the self-loop-free acceptor
moves strictly forward and stays inside the state range. -/
theorem makeHmmFsa_fwd_next (trans : Transitions) (phone : Nat)
    (pdfSeq : List Nat)
    (hff : ∀ k, k < (trans.topo phone).length →
      ∀ dp ∈ ((trans.topo phone).getD k ⟨0, []⟩).fwdTrans,
        k < dp.1 ∧ dp.1 ≤ (trans.topo phone).length) :
    ∀ j, ∀ a ∈ (makeHmmFsa trans phone pdfSeq false).arcs.getD j [],
      j < a.nextstate ∧
      a.nextstate < (makeHmmFsa trans phone pdfSeq false).arcs.length := by
  intro j a ha
  rw [makeHmmFsa_arcs_length]
  by_cases hj : j < (trans.topo phone).length
  · rw [makeHmmFsa_noLoops_arcs trans phone pdfSeq j hj] at ha
    obtain ⟨dp, hdp, hdpa⟩ := List.mem_map.mp ha
    have hb := hff j hj dp hdp
    have hns : a.nextstate = dp.1 := by rw [← hdpa]
    rw [hns]
    exact ⟨hb.1, Nat.lt_succ_of_le hb.2⟩
  · rw [makeHmmFsa_arcs_ge trans phone pdfSeq false j
      (Nat.le_of_not_lt hj)] at ha
    cases ha

/-- Extending the lane list does not change the lane of an existing
state. -/
theorem laneAt_append_old (acc : HAccum) (extra : List (Nat × List Arc))
    (sa : List Arc) (ds : List Nat) (s : Nat) (hs2 : 2 ≤ s)
    (hs : s < 2 + acc.lanes.length) :
    laneAt { startArcs := sa, lanes := acc.lanes ++ extra,
             disambigSyms := ds } s = laneAt acc s := by
  unfold laneAt
  have hlt : s - 2 < acc.lanes.length := by omega
  rw [getD_append_lt _ _ _ hlt]

/-- The lane of a freshly appended state is read off the appended list. -/
theorem laneAt_append_new (acc : HAccum) (extra : List (Nat × List Arc))
    (sa : List Arc) (ds : List Nat) (t : Nat) :
    laneAt { startArcs := sa, lanes := acc.lanes ++ extra,
             disambigSyms := ds } (2 + acc.lanes.length + t) =
      (extra.getD t (0, [])).1 := by
  unfold laneAt
  have harith : 2 + acc.lanes.length + t - 2 = acc.lanes.length + t := by
    omega
  rw [harith, getD_append_right_len]

/-- Appending arcs to the start state preserves the old start arcs. -/
theorem startArcs_append_old (sa : List Arc) (x : Arc) (k : Nat)
    (hk : k < sa.length) :
    (sa ++ [x]).getD k ⟨0, 0, 0, 0⟩ = sa.getD k ⟨0, 0, 0, 0⟩ :=
  getD_append_lt _ _ _ hk _

/-- Embedding a disambiguation entry preserves the assembler invariant. -/
theorem HInv_disambig_step (i : Nat) (acc : HAccum) (sym : Nat)
    (ds : List Nat) (hinv : HInv i acc) :
    HInv (i + 1)
      { startArcs := acc.startArcs ++ [⟨sym, i, 1, 1⟩],
        lanes := acc.lanes, disambigSyms := ds } := by
  obtain ⟨hlen, hstart, hlane⟩ := hinv
  unfold HInv
  unfold laneAt at hstart hlane ⊢
  dsimp only at hstart hlane ⊢
  refine ⟨by simpa using hlen, ?_, ?_⟩
  · intro k hk
    by_cases hki : k < i
    · have hk0 : k < acc.startArcs.length := by omega
      rw [getD_append_lt _ _ _ hk0]
      exact hstart k hki
    · have hki2 : k = i := by omega
      subst hki2
      rw [getD_append_at _ _ _ _ hlen.symm]
      exact ⟨rfl, Or.inl rfl⟩
  · intro s hs2 hs
    obtain ⟨hl, harcs⟩ := hlane s hs2 hs
    exact ⟨by omega, harcs⟩

/-- A lane copy has one state per acceptor state. -/
theorem laneCopy_length (i base : Nat) (fsa : Fst) :
    (laneCopy i base fsa).length = fsa.arcs.length := by
  simp [laneCopy]

/-- The t-th state of a lane copy. -/
theorem laneCopy_getD (i base : Nat) (fsa : Fst) (t : Nat)
    (ht : t < fsa.arcs.length) :
    (laneCopy i base fsa).getD t (0, []) = (i, laneCopyArcs i base fsa t) := by
  unfold laneCopy
  exact getD_range_map _ _ _ ht _

/-- Every arc of a lane-copy state is either a shifted acceptor arc or the
exit arc to the shared final. -/
theorem laneCopyArcs_mem (i base : Nat) (fsa : Fst) (j : Nat) (a : Arc)
    (ha : a ∈ laneCopyArcs i base fsa j) :
    (∃ a0 ∈ fsa.arcs.getD j [],
      a = ⟨a0.ilabel, i, a0.weight, base + a0.nextstate⟩) ∨
    (fsa.finals.getD j 0 ≠ 0 ∧ a = ⟨0, i, fsa.finals.getD j 0, 1⟩) := by
  unfold laneCopyArcs at ha
  rcases List.mem_append.mp ha with h | h
  · obtain ⟨a0, ha0, heq⟩ := List.mem_map.mp h
    exact Or.inl ⟨a0, ha0, heq.symm⟩
  · by_cases hf : fsa.finals.getD j 0 ≠ 0
    · rw [if_pos hf] at h
      rcases List.mem_singleton.mp h with heq
      exact Or.inr ⟨hf, heq⟩
    · rw [if_neg hf] at h
      cases h

/-- Embedding a phone lane preserves the assembler invariant, provided the
compiled acceptor is nonempty and all its arcs move strictly forward within
its state range. -/
theorem HInv_phone_step (i : Nat) (acc : HAccum) (fsa : Fst) (ds : List Nat)
    (hinv : HInv i acc)
    (hnext : ∀ j, ∀ a ∈ fsa.arcs.getD j [],
      j < a.nextstate ∧ a.nextstate < fsa.arcs.length)
    (hpos : 0 < fsa.arcs.length) :
    HInv (i + 1)
      { startArcs := acc.startArcs ++ [⟨0, i, 1, 2 + acc.lanes.length⟩],
        lanes := acc.lanes ++ laneCopy i (2 + acc.lanes.length) fsa,
        disambigSyms := ds } := by
  obtain ⟨hlen, hstart, hlane⟩ := hinv
  have hcplen : (laneCopy i (2 + acc.lanes.length) fsa).length =
      fsa.arcs.length := laneCopy_length _ _ _
  have hnewlen : (acc.lanes ++ laneCopy i (2 + acc.lanes.length) fsa).length
      = acc.lanes.length + fsa.arcs.length := by
    rw [List.length_append, hcplen]
  have hlaneold : ∀ x, 2 ≤ x → x < 2 + acc.lanes.length →
      ((acc.lanes ++ laneCopy i (2 + acc.lanes.length) fsa).getD (x - 2)
        (0, [])) = acc.lanes.getD (x - 2) (0, []) := by
    intro x hx2 hx
    exact getD_append_lt _ _ _ (by omega) _
  have hlanenew : ∀ t, t < fsa.arcs.length →
      ((acc.lanes ++ laneCopy i (2 + acc.lanes.length) fsa).getD
        (2 + acc.lanes.length + t - 2) (0, [])) =
        (i, laneCopyArcs i (2 + acc.lanes.length) fsa t) := by
    intro t ht
    have harith : 2 + acc.lanes.length + t - 2 = acc.lanes.length + t := by
      omega
    rw [harith, getD_append_right_len, laneCopy_getD _ _ _ _ ht]
  unfold HInv
  unfold laneAt at hstart hlane ⊢
  dsimp only at hstart hlane ⊢
  refine ⟨by simpa using hlen, ?_, ?_⟩
  · intro k hk
    by_cases hki : k < i
    · have hk0 : k < acc.startArcs.length := by omega
      rw [getD_append_lt _ _ _ hk0]
      obtain ⟨ho, hrest⟩ := hstart k hki
      refine ⟨ho, ?_⟩
      cases hrest with
      | inl h1 => exact Or.inl h1
      | inr h2 =>
        refine Or.inr ⟨h2.1, by omega, ?_⟩
        rw [hlaneold _ h2.1 h2.2.1]
        exact h2.2.2
    · have hki2 : k = i := by omega
      subst hki2
      rw [getD_append_at _ _ _ _ hlen.symm]
      refine ⟨rfl, Or.inr ⟨by dsimp only; omega,
        by dsimp only; rw [hnewlen]; omega, ?_⟩⟩
      show ((acc.lanes ++ laneCopy k (2 + acc.lanes.length) fsa).getD
        (2 + acc.lanes.length - 2) (0, [])).1 = k
      have h20 : 2 + acc.lanes.length - 2 = acc.lanes.length + 0 := by omega
      rw [h20, getD_append_right_len, laneCopy_getD _ _ _ _ hpos]
  · intro s hs2 hs
    rw [hnewlen] at hs
    by_cases hsold : s < 2 + acc.lanes.length
    · rw [hlaneold _ hs2 hsold]
      obtain ⟨hl, harcs⟩ := hlane s hs2 hsold
      refine ⟨by omega, ?_⟩
      intro a ha
      obtain ⟨ho, hrest⟩ := harcs a ha
      refine ⟨ho, ?_⟩
      cases hrest with
      | inl h1 => exact Or.inl h1
      | inr h2 =>
        refine Or.inr ⟨h2.1, by omega, ?_⟩
        rw [hlaneold _ (by omega) h2.2.1]
        exact h2.2.2
    · have ht : s - 2 - acc.lanes.length < fsa.arcs.length := by omega
      have hsplit : s = 2 + acc.lanes.length + (s - 2 - acc.lanes.length) :=
        by omega
      rw [hsplit, hlanenew _ ht]
      refine ⟨by omega, ?_⟩
      intro a ha
      rcases laneCopyArcs_mem _ _ _ _ a ha with h | h
      · obtain ⟨a0, ha0, heq⟩ := h
        have hb := hnext _ a0 ha0
        subst heq
        refine ⟨rfl, Or.inr ⟨by dsimp only; omega, by dsimp only; omega,
          ?_⟩⟩
        show ((acc.lanes ++ laneCopy i (2 + acc.lanes.length) fsa).getD
          (2 + acc.lanes.length + a0.nextstate - 2) (0, [])).1 = _
        rw [hlanenew _ hb.2]
      · obtain ⟨_, heq⟩ := h
        subst heq
        exact ⟨rfl, Or.inl rfl⟩

/-- The assembler loop preserves the invariant: starting from an
accumulator satisfying it for the first i entries, a successful run over
the remaining entries yields an accumulator satisfying it for all of
them. -/
theorem hBuildGo_inv (ctx : ContextDep) (trans : Transitions)
    (cfg : HTransducerConfig) (hcfg : cfg.include_self_loops = false) :
    ∀ (es : List (List Nat)) (i : Nat) (acc0 acc : HAccum),
      (∀ e ∈ es, ∀ k, k < (trans.topo (e.getD ctx.central 0)).length →
        ∀ dp ∈ ((trans.topo (e.getD ctx.central 0)).getD k
            ⟨0, []⟩).fwdTrans,
          k < dp.1 ∧ dp.1 ≤ (trans.topo (e.getD ctx.central 0)).length) →
      hBuildGo ctx trans cfg i es acc0 = some acc →
      HInv i acc0 →
      HInv (i + es.length) acc := by
  intro es
  induction es with
  | nil =>
    intro i acc0 acc _ h hinv
    cases Option.some.inj h
    simpa using hinv
  | cons e rest ih =>
    intro i acc0 acc hff h hinv
    have hffrest : ∀ e2 ∈ rest, ∀ k,
        k < (trans.topo (e2.getD ctx.central 0)).length →
        ∀ dp ∈ ((trans.topo (e2.getD ctx.central 0)).getD k
            ⟨0, []⟩).fwdTrans,
          k < dp.1 ∧ dp.1 ≤ (trans.topo (e2.getD ctx.central 0)).length :=
      fun e2 he2 => hff e2 (List.mem_cons_of_mem e he2)
    unfold hBuildGo at h
    by_cases hd : isDisambigEntry trans e = true
    · rw [if_pos hd] at h
      have hstep := HInv_disambig_step i acc0 (e.getD 0 0)
        (acc0.disambigSyms ++ [e.getD 0 0]) hinv
      have := ih (i + 1) _ acc hffrest h hstep
      have harith : i + (e :: rest).length = (i + 1) + rest.length := by
        simp [List.length_cons]
        omega
      rw [harith]
      exact this
    · rw [if_neg hd] at h
      cases hfsa : GetHmmAsFsa e ctx trans cfg.include_self_loops [] with
      | none => rw [hfsa] at h; cases h
      | some p =>
        obtain ⟨fsa, cc⟩ := p
        rw [hfsa] at h
        rw [hcfg] at hfsa
        obtain ⟨seq, _, hfsaeq⟩ :=
          getHmmAsFsa_emptyCache e ctx trans false fsa cc hfsa
        have hffphone := hff e (List.mem_cons_self e rest)
        have hnext : ∀ j, ∀ a ∈ fsa.arcs.getD j [],
            j < a.nextstate ∧ a.nextstate < fsa.arcs.length := by
          rw [hfsaeq]
          exact makeHmmFsa_fwd_next trans (e.getD ctx.central 0) seq
            hffphone
        have hpos : 0 < fsa.arcs.length := by
          rw [hfsaeq, makeHmmFsa_arcs_length]
          omega
        have hstep := HInv_phone_step i acc0 fsa acc0.disambigSyms hinv
          hnext hpos
        have := ih (i + 1) _ acc hffrest h hstep
        have harith : i + (e :: rest).length = (i + 1) + rest.length := by
          simp [List.length_cons]
          omega
        rw [harith]
        exact this

/-- The arcs of the assembled transducer at the shared start state. -/
theorem buildHFst_arcs_start (acc : HAccum) :
    (buildHFst acc).arcs.getD 0 [] = acc.startArcs := rfl

/-- The arcs of the assembled transducer at an internal lane state. -/
theorem buildHFst_arcs_lane (acc : HAccum) (s : Nat) (hs2 : 2 ≤ s)
    (hs : s < 2 + acc.lanes.length) :
    (buildHFst acc).arcs.getD s [] = (acc.lanes.getD (s - 2) (0, [])).2 := by
  obtain ⟨t, rfl⟩ : ∃ t, s = t + 2 := ⟨s - 2, by omega⟩
  show ((acc.lanes.map Prod.snd).getD t []) = _
  have htl : t < acc.lanes.length := by omega
  rw [getD_map_of_lt Prod.snd acc.lanes t htl [] (0, [])]
  simp

/-- The assembled transducer has one state per lane plus start and final. -/
theorem buildHFst_arcs_length (acc : HAccum) :
    (buildHFst acc).arcs.length = 2 + acc.lanes.length := by
  show (acc.startArcs :: [] :: acc.lanes.map Prod.snd).length = _
  simp
  omega

/-- C4: lane structure of the H transducer.  For an ilabel_info of size N,
the assembled transducer (built with the default self-loop-free
configuration, over feed-forward topologies) has exactly N start arcs —
the k-th carrying output label k — each leading either straight to the
shared final state (a disambiguation lane) or into the lane of entry k;
`laneAt` assigns every internal state to exactly one lane, so no two lanes
share an internal state; every arc at an internal state carries its lane's
output label and either exits to the shared final state or moves strictly
forward (hence acyclically) within the same lane.  Consequently every
accepted path stays inside one lane and its output labels all equal that
lane's entry index: the output label alone identifies the ilabel_info
entry (phone-in-context or disambiguation symbol) the path went through. -/
theorem getHTransducer_lanes (ilabelInfo : List (List Nat))
    (ctx : ContextDep) (trans : Transitions) (cfg : HTransducerConfig)
    (H : Fst) (syms : List Nat) (acc : HAccum)
    (hcfg : cfg.include_self_loops = false)
    (hff : ∀ e ∈ ilabelInfo, ∀ k,
      k < (trans.topo (e.getD ctx.central 0)).length →
      ∀ dp ∈ ((trans.topo (e.getD ctx.central 0)).getD k ⟨0, []⟩).fwdTrans,
        k < dp.1 ∧ dp.1 ≤ (trans.topo (e.getD ctx.central 0)).length)
    (hres : GetHTransducer ilabelInfo ctx trans cfg = some (H, syms))
    (hacc : hBuildGo ctx trans cfg 0 ilabelInfo ⟨[], [], []⟩ = some acc) :
    H = buildHFst acc ∧
    (H.arcs.getD 0 []).length = ilabelInfo.length ∧
    H.arcs.getD 1 [] = [] ∧
    H.finals.getD 1 0 = 1 ∧
    (∀ k, k < ilabelInfo.length →
      ((H.arcs.getD 0 []).getD k ⟨0, 0, 0, 0⟩).olabel = k ∧
      (((H.arcs.getD 0 []).getD k ⟨0, 0, 0, 0⟩).nextstate = 1 ∨
        (2 ≤ ((H.arcs.getD 0 []).getD k ⟨0, 0, 0, 0⟩).nextstate ∧
         ((H.arcs.getD 0 []).getD k ⟨0, 0, 0, 0⟩).nextstate <
           H.arcs.length ∧
         laneAt acc ((H.arcs.getD 0 []).getD k ⟨0, 0, 0, 0⟩).nextstate =
           k))) ∧
    (∀ s, 2 ≤ s → s < H.arcs.length →
      laneAt acc s < ilabelInfo.length ∧
      ∀ a ∈ H.arcs.getD s [],
        a.olabel = laneAt acc s ∧
        (a.nextstate = 1 ∨
          (s < a.nextstate ∧ a.nextstate < H.arcs.length ∧
           laneAt acc a.nextstate = laneAt acc s))) := by
  unfold GetHTransducer at hres
  rw [hacc, Option.map_some'] at hres
  have hH : H = buildHFst acc :=
    (congrArg Prod.fst (Option.some.inj hres)).symm
  have hinv0 : HInv 0 ⟨[], [], []⟩ := by
    refine ⟨rfl, ?_, ?_⟩
    · intro k hk
      exact absurd hk (Nat.not_lt_zero k)
    · intro s hs2 hs
      dsimp only at hs
      simp only [List.length_nil] at hs
      omega
  have hinv := hBuildGo_inv ctx trans cfg hcfg ilabelInfo 0 _ acc hff hacc
    hinv0
  rw [Nat.zero_add] at hinv
  obtain ⟨hlen, hstart, hlane⟩ := hinv
  subst hH
  refine ⟨rfl, ?_, rfl, rfl, ?_, ?_⟩
  · rw [buildHFst_arcs_start]
    exact hlen
  · intro k hk
    rw [buildHFst_arcs_start, buildHFst_arcs_length]
    exact hstart k hk
  · intro s hs2 hs
    rw [buildHFst_arcs_length] at hs
    rw [buildHFst_arcs_lane acc s hs2 hs, buildHFst_arcs_length]
    exact hlane s hs2 hs

/-- C4 witness: the lane theorem applied to two entries — one triphone
window, one disambiguation symbol. -/
theorem getHTransducer_lanes_witness :
    GetHTransducer [[5, 1, 6], [9]] exCtxC8 rtTrans ⟨-1, false⟩ =
      some (exHC4, [9]) ∧
    hBuildGo exCtxC8 rtTrans ⟨-1, false⟩ 0 [[5, 1, 6], [9]]
      ⟨[], [], []⟩ = some exAccC4 ∧
    (exHC4.arcs.getD 0 []).length = ([[5, 1, 6], [9]] : List
      (List Nat)).length ∧
    exHC4 = buildHFst exAccC4 := by
  have hacc : hBuildGo exCtxC8 rtTrans ⟨-1, false⟩ 0 [[5, 1, 6], [9]]
      ⟨[], [], []⟩ = some exAccC4 := by
    simp [hBuildGo, laneCopy, laneCopyArcs, isDisambigEntry, GetHmmAsFsa,
      makeHmmFsa, hmmStateArcs, exCtxC8, rtTrans, exAccC4,
      kNontermBigNumber, List.range_succ]
    norm_num
  have hres : GetHTransducer [[5, 1, 6], [9]] exCtxC8 rtTrans ⟨-1, false⟩ =
      some (exHC4, [9]) := by
    rw [GetHTransducer, hacc, Option.map_some']
    simp [buildHFst, natSortDedup, natInsert, exAccC4, exHC4,
      List.range_succ]
  have hff : ∀ e ∈ ([[5, 1, 6], [9]] : List (List Nat)), ∀ k,
      k < (rtTrans.topo (e.getD exCtxC8.central 0)).length →
      ∀ dp ∈ ((rtTrans.topo (e.getD exCtxC8.central 0)).getD k
          ⟨0, []⟩).fwdTrans,
        k < dp.1 ∧ dp.1 ≤ (rtTrans.topo (e.getD exCtxC8.central 0)).length
      := by
    intro e he k hk dp hdp
    rcases List.mem_cons.mp he with h | h
    · subst h
      simp only [rtTrans, exCtxC8] at hk hdp ⊢
      norm_num at hk
      interval_cases k <;> simp_all
    · rcases List.mem_singleton.mp h with rfl
      simp only [rtTrans, exCtxC8] at hk
      norm_num at hk
  have hmain := getHTransducer_lanes [[5, 1, 6], [9]] exCtxC8 rtTrans
    ⟨-1, false⟩ exHC4 [9] exAccC4 rfl hff hres hacc
  exact ⟨hres, hacc, hmain.2.1, hmain.1⟩

end KaldiHmm
